import Mathlib

/-!
Verification of the mediavalut media organizer's folder/media tree model.

The definitions below are a shallow embedding of the relevant functions of
`script.js` (class `MediaVault`): the CSV parser `parseCSVContent`, the link
resolver `extractFileId`, the batch ingestion `addBatchMedia`, the selection
move operation `moveSelectedItemsToFolder`, the breadcrumb path builder
`getFolderPath`, the recursive `deleteFolder`, and the Firestore snapshot
callback installed by `startRealtimeUpdates`.

JavaScript object maps (`this.folderStructure`, `this.mediaData`) are embedded
as functions `String → Option _`; `undefined` is `none`.  JavaScript string
truthiness (`if (s)`) is `s ≠ ""` on strings known to be non-null, and an
`Option` match where the value can be `null`.  Unbounded recursion and `while`
loops are embedded with an explicit fuel parameter; the theorems about them
require only that the fuel exceeds a rank bound on the tree, so any run the
JavaScript code completes is covered.
-/

namespace MediaVault

/-- One folder record of `this.folderStructure`: `{ name, parent, children }`. -/
structure Folder where
  name : String
  parent : Option String
  children : List String
deriving DecidableEq, Repr

/-- A media record as stored in `this.mediaData[folderId]` lists:
`{ id, type, title, added }`. -/
structure MediaItem where
  id : String
  type : String
  title : String
  added : String
deriving DecidableEq, Repr

/-- `this.folderStructure`: folder id → folder record (`none` = `undefined`). -/
abbrev FolderMap := String → Option Folder

/-- `this.mediaData`: folder id → list of media records. -/
abbrev MediaMap := String → Option (List MediaItem)

/-- JS property assignment `obj[k] = v` on an object map. -/
def setKey {α : Type} (m : String → Option α) (k : String) (v : α) :
    String → Option α :=
  fun x => if x = k then some v else m x

/-- JS `delete obj[k]` on an object map. -/
def eraseKey {α : Type} (m : String → Option α) (k : String) :
    String → Option α :=
  fun x => if x = k then none else m x

/-- `getDefaultFolderStructure()`:
`{ 'root': { name: 'Home', children: [], parent: null } }`. -/
def getDefaultFolderStructure : FolderMap :=
  fun k => if k = "root" then some ⟨"Home", none, []⟩ else none

/-- `getDefaultMediaData()`: `{}`. -/
def getDefaultMediaData : MediaMap := fun _ => none

/-! ### JS string primitives

JS `split`, `trim`, `toLowerCase` and `includes` are modeled directly on the
character list so that every definition reduces in the kernel.  All inputs in
this code base are ASCII, for which these agree with the JS semantics. -/

/-- JS `s.split(sep)` for a one-character separator (`','` / `'\n'` here):
`"".split(sep)` is `[""]`, and adjacent separators yield empty fields. -/
def splitChar (sep : Char) : List Char → List (List Char)
  | [] => [[]]
  | c :: cs =>
    let r := splitChar sep cs
    if c == sep then [] :: r
    else
      match r with
      | [] => [[c]]
      | g :: gs => (c :: g) :: gs

/-- JS `s.split(sep)` on strings. -/
def jsSplit (s : String) (sep : Char) : List String :=
  (splitChar sep s.toList).map String.mk

/-- The whitespace stripped by JS `trim` (the forms occurring here). -/
def isSpaceChar (c : Char) : Bool :=
  c == ' ' || c == '\t' || c == '\n' || c == '\r'

/-- Strip leading and trailing whitespace from a character list. -/
def trimChars (s : List Char) : List Char :=
  ((s.dropWhile isSpaceChar).reverse.dropWhile isSpaceChar).reverse

/-- JS `s.trim()`. -/
def jsTrim (s : String) : String := String.mk (trimChars s.toList)

/-- ASCII lowercase of one character, as JS `toLowerCase` acts on ASCII. -/
def lowerChar (c : Char) : Char :=
  if 'A' ≤ c ∧ c ≤ 'Z' then Char.ofNat (c.toNat + 32) else c

/-- JS `s.toLowerCase()` (ASCII range). -/
def jsToLower (s : String) : String := String.mk (s.toList.map lowerChar)

/-- Does `pat` occur at the start of `s`? (Auxiliary for JS `String.includes`.) -/
def leadsWith : List Char → List Char → Bool
  | [], _ => true
  | _ :: _, [] => false
  | p :: ps, c :: cs => p == c && leadsWith ps cs

/-- Does `pat` occur anywhere in `s`? (Auxiliary for JS `String.includes`.) -/
def hasSeg : List Char → List Char → Bool
  | [], pat => leadsWith pat []
  | s@(_ :: rest), pat => leadsWith pat s || hasSeg rest pat

/-- JS `s.includes(pat)`: substring containment. -/
def strIncludes (s pat : String) : Bool := hasSeg s.toList pat.toList

/-! ### CSV ingestion (`parseCSVContent`) -/

/-- A parsed CSV media record: `{ id, type, title, folder, added }`. -/
structure CsvItem where
  id : String
  type : String
  title : String
  folder : String
  added : String
deriving DecidableEq, Repr

/-- The loop body of `parseCSVContent` for line index `i`: trims the line,
splits on commas, trims each column, and yields an item when there are at
least two columns and both `id` and `type` are nonempty (JS truthiness).
`now` stands for `new Date().toISOString()`. -/
def parseRow (now : String) (i : Nat) (rawLine : String) : Option CsvItem :=
  let line := jsTrim rawLine
  if line = "" then none
  else
    let columns := (jsSplit line ',').map jsTrim
    if columns.length ≥ 2 then
      let id := columns.getD 0 ""
      let ty := columns.getD 1 ""
      let title := columns.getD 2 ""
      let folder := columns.getD 3 ""
      if id ≠ "" ∧ ty ≠ "" then
        some ⟨id, jsToLower ty,
              if title = "" then "Media " ++ toString i else title, folder, now⟩
      else none
    else none

/-- The `for` loop of `parseCSVContent`, starting at line index `i`. -/
def parseRowsFrom (now : String) : Nat → List String → List CsvItem
  | _, [] => []
  | i, l :: ls =>
    match parseRow now i l with
    | some item => item :: parseRowsFrom now (i + 1) ls
    | none => parseRowsFrom now (i + 1) ls

/-- `csvText.split('\n').filter(line => line.trim())`: the nonblank lines. -/
def csvLines (csvText : String) : List String :=
  (jsSplit csvText '\n').filter (fun l => !(jsTrim l == ""))

/-- `parseCSVContent(csvText)`.  The header test is
`lines[0].toLowerCase().includes('id,')` — substring containment, not a
prefix test.  On an input with no nonblank line the JS code throws
(`lines[0]` is `undefined`); that case is modeled as `[]` and is not used
by any theorem. -/
def parseCSVContent (csvText now : String) : List CsvItem :=
  match csvLines csvText with
  | [] => []
  | l0 :: ls =>
    if strIncludes (jsToLower l0) "id," then parseRowsFrom now 1 ls
    else parseRowsFrom now 0 (l0 :: ls)

/-! ### Link resolver (`extractFileId`) -/

/-- The semantics of the JS regexes `/LIT([^BAD]+)/`: scan left to right for
the first position at which the literal occurs followed by at least one
character other than `bad`; the capture is the maximal such run. -/
def findCapture : List Char → List Char → Char → Option (List Char)
  | [], _, _ => none
  | s@(_ :: rest), lit, bad =>
    if leadsWith lit s then
      let cap := (s.drop lit.length).takeWhile (fun c => !(c == bad))
      if cap.isEmpty then findCapture rest lit bad else some cap
    else findCapture rest lit bad

/-- Rejoin split groups with the separator (inverse of `splitChar`). -/
def joinWith (sep : Char) : List (List Char) → List Char
  | [] => []
  | [g] => g
  | g :: gs => g ++ sep :: joinWith sep gs

/-- The success path of the `new URL(url).searchParams.get('id')` fallback of
`extractFileId`: take the part after the first `?` (up to `#`), split it on
`&`, and return the value of the first `id=` parameter if nonempty
(`if (id) return id`).  Percent-decoding is not modeled.  The `URL`
constructor's exception on malformed input is modeled separately: see
`extractFileIdE` and `jsUrlApi`, used by the batch-ingestion theorems;
`extractFileId` below is relied on only where the fallback is not engaged. -/
def driveShareId (url : String) : Option String :=
  match splitChar '?' url.toList with
  | [] => none
  | [_] => none
  | _ :: rest =>
    let query := (splitChar '#' (joinWith '?' rest)).headD []
    let params := splitChar '&' query
    let vals := params.filterMap (fun p =>
      match splitChar '=' p with
      | n :: v :: vs => if n = "id".toList then some (joinWith '=' (v :: vs)) else none
      | _ => none)
    match vals.head? with
    | some v => if v.isEmpty then none else some (String.mk v)
    | none => none

/-- `extractFileId(url)`: a bare 33-character identifier with no `/` and no
`=` is returned unchanged; otherwise the patterns `/\/file\/d\/([^\/]+)/`,
`/id=([^&]+)/`, `/\/d\/([^\/]+)/` are tried in order; the source's fourth
pattern `/\/view\?usp=sharing/` has no capture group, so `match[1]` is never
set and it can never produce a result — it is omitted.  Finally the
`drive.google.com` share-URL fallback is tried, else `null`. -/
def extractFileId (url : String) : Option String :=
  if url.length = 33 ∧ strIncludes url "/" = false ∧ strIncludes url "=" = false then
    some url
  else
    match findCapture url.toList "/file/d/".toList '/' with
    | some cap => some (String.mk cap)
    | none =>
      match findCapture url.toList "id=".toList '&' with
      | some cap => some (String.mk cap)
      | none =>
        match findCapture url.toList "/d/".toList '/' with
        | some cap => some (String.mk cap)
        | none =>
          if strIncludes url "drive.google.com" then driveShareId url else none

/-! ### Batch ingestion (`addBatchMedia`) -/

/-- The media record pushed by `addBatchMedia` for the link at index `i`
(0-based; the title uses `i + 1`): `prefix ? `${prefix} ${i+1}` : `Media ${i+1}``. -/
def mkBatchItem (fid mtype pfx : String) (i : Nat) (now : String) : MediaItem :=
  ⟨fid, mtype,
   if pfx = "" then "Media " ++ toString (i + 1) else pfx ++ " " ++ toString (i + 1),
   now⟩

/-- `linksText.split('\n').map(link => link.trim()).filter(link => link)` over
the already-trimmed textarea value. -/
def batchLinks (linksText : String) : List String :=
  ((jsSplit (jsTrim linksText) '\n').map jsTrim).filter (fun l => !(l == ""))

/-- Is an `Except` value a success? -/
def exceptOk {ε α : Type} : Except ε α → Bool
  | Except.ok _ => true
  | Except.error _ => false

/-- An ASCII letter. -/
def isAlphaChar (c : Char) : Bool :=
  decide (('a' ≤ c ∧ c ≤ 'z') ∨ ('A' ≤ c ∧ c ≤ 'Z'))

/-- A character allowed after the first one in a URL scheme. -/
def isSchemeRestChar (c : Char) : Bool :=
  isAlphaChar c || decide ('0' ≤ c ∧ c ≤ '9') || c == '+' || c == '-' || c == '.'

/-- A valid URL scheme: a letter followed by letters, digits, `+`, `-`, `.`. -/
def validScheme : List Char → Bool
  | [] => false
  | c :: rest => isAlphaChar c && rest.all isSchemeRestChar

/-- Does the string start with `scheme:` for a valid scheme?  The WHATWG `URL`
constructor throws on every input without one. -/
def hasScheme (url : String) : Bool :=
  match splitChar ':' url.toList with
  | pre :: _ :: _ => validScheme pre
  | _ => false

/-- `extractFileId` with the external `new URL(url).searchParams.get('id')`
call abstracted as `urlApi`, so that the constructor's exception is part of
the model: `Except.error` propagates to the caller exactly as the JS throw
does.  All other branches are those of `extractFileId`. -/
def extractFileIdE (urlApi : String → Except Unit (Option String)) (url : String) :
    Except Unit (Option String) :=
  if url.length = 33 ∧ strIncludes url "/" = false ∧ strIncludes url "=" = false then
    Except.ok (some url)
  else
    match findCapture url.toList "/file/d/".toList '/' with
    | some cap => Except.ok (some (String.mk cap))
    | none =>
      match findCapture url.toList "id=".toList '&' with
      | some cap => Except.ok (some (String.mk cap))
      | none =>
        match findCapture url.toList "/d/".toList '/' with
        | some cap => Except.ok (some (String.mk cap))
        | none =>
          if strIncludes url "drive.google.com" then
            match urlApi url with
            | Except.error e => Except.error e
            | Except.ok (some v) => Except.ok (if v = "" then none else some v)
            | Except.ok none => Except.ok none
          else Except.ok none

/-- A concrete `urlApi`: the WHATWG `new URL` constructor throws on every
input without a `scheme:` prefix (this is what the ingestion counterexample
exercises — `"drive.google.com hello"` has none); on success the query is
read by `driveShareId`.  Scheme-valid inputs the browser still rejects
(invalid hosts) and percent-decoding are not modeled here; the amended
batch statement is made for an arbitrary `urlApi` and does not depend on
this choice. -/
def jsUrlApi (url : String) : Except Unit (Option String) :=
  if hasScheme url then Except.ok (driveShareId url) else Except.error ()

/-- The `for` loop of `addBatchMedia` over the (index, link) pairs: a link on
which `extractFileId` throws aborts the loop, keeping the items pushed so far
(the JS exception propagates out of the method after the mutations made
before it); otherwise each link with a truthy id pushes an item onto
`this.mediaData[cf]` (created if absent). -/
def addBatchRun (urlApi : String → Except Unit (Option String))
    (cf mtype pfx now : String) :
    List (Nat × String) → MediaMap → Except MediaMap MediaMap
  | [], m => Except.ok m
  | p :: ps, m =>
    match extractFileIdE urlApi p.2 with
    | Except.error _ => Except.error m
    | Except.ok none => addBatchRun urlApi cf mtype pfx now ps m
    | Except.ok (some fid) =>
      if fid = "" then addBatchRun urlApi cf mtype pfx now ps m
      else addBatchRun urlApi cf mtype pfx now ps
        (setKey m cf ((m cf).getD [] ++ [mkBatchItem fid mtype pfx p.1 now]))

/-- The state change of `addBatchMedia()` on `this.mediaData`: nothing happens
on an empty input or on more than 10 non-blank links (both checked before any
link is resolved); otherwise the loop runs, possibly aborted by a throwing
`extractFileId` (`Except.error` carries the map at the abort). -/
def addBatchMediaE (urlApi : String → Except Unit (Option String))
    (md : MediaMap) (currentFolder linksText pfx mtype now : String) :
    Except MediaMap MediaMap :=
  if jsTrim linksText = "" then Except.ok md
  else
    if (batchLinks linksText).length > 10 then Except.ok md
    else addBatchRun urlApi currentFolder mtype pfx now (batchLinks linksText).enum md

/-- The item contributed by one (index, link) pair of the batch when the
resolver does not throw. -/
def batchItemOfE (urlApi : String → Except Unit (Option String))
    (mtype pfx now : String) (p : Nat × String) : Option MediaItem :=
  match extractFileIdE urlApi p.2 with
  | Except.ok (some fid) =>
    if fid = "" then none else some (mkBatchItem fid mtype pfx p.1 now)
  | _ => none

/-! ### Sync reconciler (`startRealtimeUpdates` snapshot callback) -/

/-- The fields of a remote Firestore document read by the snapshot callback;
`none` models a missing field (`data.lastUpdated || ''` and the
`|| this.getDefault...()` fallbacks). -/
structure RemoteDoc where
  folderStructure : Option FolderMap
  mediaData : Option MediaMap
  lastUpdated : Option String

/-- The client state touched by the snapshot callback: the in-memory maps,
the `this.syncing` flag set for the duration of `saveDataToFirebase`, and the
value of `getLocalTimestamp()` — the `lastUpdated` this client last wrote to
its local backup (written on every save). -/
structure ClientState where
  folderStructure : FolderMap
  mediaData : MediaMap
  syncing : Bool
  localTimestamp : String

/-- The `docRef.onSnapshot` callback installed by `startRealtimeUpdates`:
when the document exists, the remote `lastUpdated` is compared with
`getLocalTimestamp()`, and the in-memory maps are replaced wholesale only if
they differ and `this.syncing` is not set. -/
def onRemoteSnapshot (st : ClientState) (docExists : Bool) (data : RemoteDoc) :
    ClientState :=
  if docExists then
    if data.lastUpdated.getD "" ≠ st.localTimestamp ∧ st.syncing = false then
      { st with
        folderStructure := data.folderStructure.getD getDefaultFolderStructure,
        mediaData := data.mediaData.getD getDefaultMediaData }
    else st
  else st

/-! ### Selection move (`moveSelectedItemsToFolder`) -/

/-- One entry of `this.selectedItems`: a media reference carries the media id
and its source folder id, a folder reference carries the folder id. -/
inductive SelItem where
  | media (id : String) (folderId : String)
  | folder (id : String)
deriving DecidableEq, Repr

/-- `findIndex(m => m.id === id)` followed by `splice(index, 1)`: remove the
first item with the given id, returning it and the remaining list. -/
def removeFirstById : List MediaItem → String → Option (MediaItem × List MediaItem)
  | [], _ => none
  | m :: rest, mid =>
    if m.id = mid then some (m, rest)
    else
      match removeFirstById rest mid with
      | none => none
      | some (x, r) => some (x, m :: r)

/-- The `forEach` body of `moveSelectedItemsToFolder` for one selected item.
Media branch: the first matching item is spliced out of the source list and
pushed onto the target list (created if absent); nothing happens when it is
not found.  Folder branch: nothing happens when the folder is absent or its
parent already is the target; otherwise it is removed from its parent's
`children` (when `folder.parent` is truthy and present), reparented, and
pushed onto the target's `children`.  When the target folder is absent the
JS code throws a `TypeError` at `folderStructure[targetFolderId].children`
after the reparent; the model skips the push there — no theorem uses an
absent target. -/
def moveOneItem (st : FolderMap × MediaMap) (targetFolderId : String)
    (item : SelItem) : FolderMap × MediaMap :=
  match item with
  | SelItem.media mid srcF =>
    let mediaArray := (st.2 srcF).getD []
    match removeFirstById mediaArray mid with
    | none => st
    | some (m, rest) =>
      let md1 := setKey st.2 srcF rest
      (st.1, setKey md1 targetFolderId ((md1 targetFolderId).getD [] ++ [m]))
  | SelItem.folder fid =>
    match st.1 fid with
    | none => st
    | some folder =>
      if folder.parent = some targetFolderId then st
      else
        let fs1 :=
          match folder.parent with
          | some p =>
            if p ≠ "" then
              match st.1 p with
              | some pf =>
                setKey st.1 p { pf with children := pf.children.filter (fun c => !(c == fid)) }
              | none => st.1
            else st.1
          | none => st.1
        let fs2 := setKey fs1 fid { folder with parent := some targetFolderId }
        match fs2 targetFolderId with
        | some tf =>
          (setKey fs2 targetFolderId { tf with children := tf.children ++ [fid] }, st.2)
        | none => (fs2, st.2)

/-- `moveSelectedItemsToFolder(targetFolderId)`: a no-op on a falsy target or
empty selection, otherwise the `forEach` over the selected items. -/
def moveSelectedItemsToFolder (st : FolderMap × MediaMap)
    (selectedItems : List SelItem) (targetFolderId : String) :
    FolderMap × MediaMap :=
  if targetFolderId = "" ∨ selectedItems = [] then st
  else selectedItems.foldl (fun s item => moveOneItem s targetFolderId item) st

/-- A two-folder tree `root → a`, used as the C1 failing input. -/
def fsC1 : FolderMap := fun k =>
  if k = "root" then some ⟨"Home", none, ["a"]⟩
  else if k = "a" then some ⟨"A", some "root", []⟩
  else none

/-- The media map for the `moveMedia_spec` witness: one clip in `src`. -/
def mdC6 : MediaMap :=
  fun k => if k = "src" then some [⟨"m1", "video", "Clip", "t0"⟩] else none

/-! ### Breadcrumb path (`getFolderPath`) -/

/-- One breadcrumb entry `{ id, name }` pushed by `getFolderPath`. -/
structure PathEntry where
  id : String
  name : String
deriving DecidableEq, Repr

/-- `getFolderPath(folderId)`: the loop
`while (current && this.folderStructure[current])` unshifts `{id, name}` and
follows `parent`, producing the root-first path.  The loop is embedded as
fuel-bounded recursion up the parent chain; the theorems assume fuel larger
than a rank that decreases along parent links, which covers every terminating
JS run. -/
def getFolderPath : Nat → FolderMap → Option String → List PathEntry
  | 0, _, _ => []
  | _ + 1, _, none => []
  | n + 1, fs, some c =>
    if c = "" then []
    else
      match fs c with
      | none => []
      | some f => getFolderPath n fs f.parent ++ [⟨c, f.name⟩]

/-- The §3 invariants needed for the breadcrumb walk: only `root` has a null
parent, every parent link is truthy and present, and a rank strictly
decreases from child to parent (no cycles in the parent chain). -/
structure PathWF (fs : FolderMap) (urank : String → Nat) : Prop where
  rootOnly : ∀ x f, fs x = some f → f.parent = none → x = "root"
  parentPresent : ∀ x f p, fs x = some f → f.parent = some p →
    p ≠ "" ∧ (fs p).isSome = true
  parentRank : ∀ x f p, fs x = some f → f.parent = some p → urank p < urank x

/-- A parent-chain rank for the concrete two-folder tree `fsC1`. -/
def urankC1 : String → Nat := fun k => if k = "root" then 0 else 1

/-! ### Recursive folder deletion (`deleteFolder`)

`deleteFolder(folderId)` removes the folder from its parent's `children`,
recursively deletes its children (reading the child list captured before the
recursion, as `forEach` does), and finally deletes the folder's entries in
both maps.  The unbounded JS recursion is embedded with fuel; on a map
satisfying the §3 tree invariants the recursion depth is bounded by a rank,
so every fuel above the rank of the deleted folder computes the JS result. -/

/-- The first phase of `deleteFolder`:
`if (folder.parent && this.folderStructure[folder.parent]) { ...filter... }`
removes `folderId` from its parent's `children` when the parent id is truthy
and present. -/
def removeFromParent (fs : FolderMap) (folderId : String) (folder : Folder) :
    FolderMap :=
  match folder.parent with
  | some p =>
    if p ≠ "" then
      match fs p with
      | some pf =>
        setKey fs p { pf with children := pf.children.filter (fun c => !(c == folderId)) }
      | none => fs
    else fs
  | none => fs

def deleteFolderFuel : Nat → FolderMap × MediaMap → String → FolderMap × MediaMap
  | 0, st, _ => st
  | n + 1, st, folderId =>
    match st.1 folderId with
    | none => st
    | some folder =>
      let fs1 := removeFromParent st.1 folderId folder
      let st2 := folder.children.foldl (deleteFolderFuel n) (fs1, st.2)
      (eraseKey st2.1 folderId, eraseKey st2.2 folderId)

/-- `Desc fs a b`: folder `b` belongs to the subtree rooted at `a`, following
`children` links through folders present in `fs` (reflexive on present
folders). -/
inductive Desc (fs : FolderMap) : String → String → Prop where
  | self {x : String} {f : Folder} : fs x = some f → Desc fs x x
  | step {x : String} {f : Folder} {c d : String} :
      fs x = some f → c ∈ f.children → Desc fs c d → Desc fs x d

/-- The §3 invariants of the folder map, witnessed by a rank function that
strictly decreases from parent to child: every listed child exists and points
back to its owner, ranks decrease downward along `children` and upward along
`parent` (so there are no cycles in either direction), and parent ids are
truthy. -/
structure TreeWF (fs : FolderMap) (rank : String → Nat) : Prop where
  childExists : ∀ p f c, fs p = some f → c ∈ f.children →
    ∃ g, fs c = some g ∧ g.parent = some p
  childRank : ∀ p f c, fs p = some f → c ∈ f.children → rank c < rank p
  parentRank : ∀ x f p, fs x = some f → f.parent = some p → rank x < rank p
  parentTruthy : ∀ x f, fs x = some f → f.parent ≠ some ""

/-- The value of key `k` after the first phase of `deleteFolder F` (removal
of `F` from its parent's `children`): the parent's record is filtered, every
other key is unchanged. -/
def parentAdjusted (fs : FolderMap) (F k : String) : Option Folder :=
  match fs F with
  | none => fs k
  | some f =>
    if f.parent = some k ∧ k ≠ "" then
      match fs k with
      | some pf => some { pf with children := pf.children.filter (fun c => !(c == F)) }
      | none => none
    else fs k

/-- The characterization of `deleteFolderFuel` at fuel `n`: descendants of
the deleted folder vanish from both maps, every other key holds
`parentAdjusted` (the parent's record with the folder filtered out, all
others unchanged) and its old media list. -/
def DeleteChar (n : Nat) (rank : String → Nat) : Prop :=
  ∀ (fs : FolderMap) (md : MediaMap) (F : String), TreeWF fs rank → rank F < n →
    (∀ k, Desc fs F k →
        (deleteFolderFuel n (fs, md) F).1 k = none ∧
        (deleteFolderFuel n (fs, md) F).2 k = none) ∧
    (∀ k, ¬ Desc fs F k →
        (deleteFolderFuel n (fs, md) F).1 k = parentAdjusted fs F k ∧
        (deleteFolderFuel n (fs, md) F).2 k = md k)

/-- Media map with one item stored under `root`, for the C2 failing input. -/
def mdC2 : MediaMap :=
  fun k => if k = "root" then some [⟨"m1", "video", "Clip", "t0"⟩] else none

/-- The three-folder tree `root → a → b` for the C3 witness. -/
def fsC3 : FolderMap := fun k =>
  if k = "root" then some ⟨"Home", none, ["a"]⟩
  else if k = "a" then some ⟨"A", some "root", ["b"]⟩
  else if k = "b" then some ⟨"B", some "a", []⟩
  else none

/-- Media for the C3 witness: one item under `b`. -/
def mdC3 : MediaMap :=
  fun k => if k = "b" then some [⟨"m2", "image", "Pic", "t0"⟩] else none

/-- A rank function witnessing the tree invariants of `fsC3`. -/
def rankC3 : String → Nat :=
  fun k => if k = "root" then 2 else if k = "a" then 1 else 0

/-! ### Theorems -/

theorem setKey_same {α : Type} (m : String → Option α) (k : String) (v : α) :
    setKey m k v k = some v := by simp [setKey]

theorem setKey_other {α : Type} (m : String → Option α) (k x : String) (v : α)
    (h : x ≠ k) : setKey m k v x = m x := by simp [setKey, h]

theorem eraseKey_same {α : Type} (m : String → Option α) (k : String) :
    eraseKey m k k = none := by simp [eraseKey]

theorem eraseKey_other {α : Type} (m : String → Option α) (k x : String)
    (h : x ≠ k) : eraseKey m k x = m x := by simp [eraseKey, h]

/-- C7 counterexample: the claim says the first line is treated as a header
exactly when it has a case-insensitive `id,` *prefix*.  The code instead tests
`lines[0].toLowerCase().includes('id,')` — substring containment — so the
well-formed data row `"vid,video,My Clip,folderA"`, whose lowercase form does
not start with `id,` but does contain it, is skipped as a header and the
parse yields no item. -/
theorem parseCSVContent_header_prefix_cex :
    parseCSVContent "vid,video,My Clip,folderA" "t0" = [] ∧
    leadsWith "id,".toList (jsToLower "vid,video,My Clip,folderA").toList = false := by
  decide

/-- C7 (amended): the first line is treated as a header (skipped) exactly when
its lowercase form *contains* the substring `id,`; every row whose first or
second trimmed column is empty (missing id or type) yields no item; the
well-formed row `"id1,video,My Clip,folderA"` parses to
`{id:"id1", type:"video", title:"My Clip", folder:"folderA"}`, and the row
`"id1"` (no type) is skipped. -/
theorem parseCSVContent_contains_header (csvText now l0 : String) (ls : List String)
    (h : csvLines csvText = l0 :: ls) :
    (strIncludes (jsToLower l0) "id," = true →
        parseCSVContent csvText now = parseRowsFrom now 1 ls) ∧
    (strIncludes (jsToLower l0) "id," = false →
        parseCSVContent csvText now = parseRowsFrom now 0 (l0 :: ls)) ∧
    (∀ i line, ((jsSplit (jsTrim line) ',').map jsTrim).getD 0 "" = "" ∨
               ((jsSplit (jsTrim line) ',').map jsTrim).getD 1 "" = "" →
               parseRow now i line = none) ∧
    parseCSVContent "id1,video,My Clip,folderA" now =
      [⟨"id1", "video", "My Clip", "folderA", now⟩] ∧
    parseCSVContent "id1" now = [] := by
  refine ⟨fun hc => ?_, fun hc => ?_, fun i line hcols => ?_, rfl, rfl⟩
  · simp [parseCSVContent, h, hc]
  · simp [parseCSVContent, h, hc]
  · unfold parseRow
    dsimp only
    split_ifs with h1 h2 h3
    · rfl
    · rcases hcols with h0 | h0
      · exact absurd h0 h3.1
      · exact absurd h0 h3.2
    · rfl
    · rfl

/-- Witness for `parseCSVContent_contains_header` at a concrete input. -/
theorem parseCSVContent_contains_header_witness :
    parseCSVContent "id,x\nrow1,video" "t0" = parseRowsFrom "t0" 1 ["row1,video"] :=
  (parseCSVContent_contains_header "id,x\nrow1,video" "t0" "id,x" ["row1,video"]
    (by decide)).1 (by decide)

/-- C8: a 33-character input with no `/` and no `=` is returned unchanged;
otherwise the path pattern `/file/d/<id>/`, the query parameter `id=<id>` and
the generic path pattern `/d/<id>/` are tried in that order, the first match
winning; `extractFileId("https://drive.google.com/file/d/ABC123/view")`
returns `"ABC123"` and `extractFileId("not a url")` returns `null`. -/
theorem extractFileId_spec :
    (∀ url : String, url.length = 33 → strIncludes url "/" = false →
        strIncludes url "=" = false → extractFileId url = some url) ∧
    (∀ url : String,
      ¬(url.length = 33 ∧ strIncludes url "/" = false ∧ strIncludes url "=" = false) →
      (∀ cap, findCapture url.toList "/file/d/".toList '/' = some cap →
          extractFileId url = some (String.mk cap)) ∧
      (findCapture url.toList "/file/d/".toList '/' = none →
        ∀ cap, findCapture url.toList "id=".toList '&' = some cap →
          extractFileId url = some (String.mk cap)) ∧
      (findCapture url.toList "/file/d/".toList '/' = none →
        findCapture url.toList "id=".toList '&' = none →
        ∀ cap, findCapture url.toList "/d/".toList '/' = some cap →
          extractFileId url = some (String.mk cap))) ∧
    extractFileId "https://drive.google.com/file/d/ABC123/view" = some "ABC123" ∧
    extractFileId "not a url" = none := by
  refine ⟨fun url h1 h2 h3 => ?_, fun url hbare => ⟨fun cap hc => ?_,
    fun h1 cap hc => ?_, fun h1 h2 cap hc => ?_⟩, by decide, by decide⟩
  · simp [extractFileId, h1, h2, h3]
  · unfold extractFileId
    rw [if_neg hbare, hc]
  · unfold extractFileId
    rw [if_neg hbare, h1, hc]
  · unfold extractFileId
    rw [if_neg hbare, h1, h2, hc]

/-- Witness for `extractFileId_spec` at a concrete bare identifier. -/
theorem extractFileId_spec_witness :
    extractFileId "abcdefghijklmnopqrstuvwxyz1234567" =
      some "abcdefghijklmnopqrstuvwxyz1234567" :=
  extractFileId_spec.1 "abcdefghijklmnopqrstuvwxyz1234567" (by decide) (by decide) (by decide)

theorem findCapture_ne_nil : ∀ (s lit : List Char) (bad : Char) (cap : List Char),
    findCapture s lit bad = some cap → cap ≠ [] := by
  intro s
  induction s with
  | nil => intro lit bad cap h; simp [findCapture] at h
  | cons c cs ih =>
    intro lit bad cap h
    unfold findCapture at h
    dsimp only at h
    split_ifs at h with h1 h2
    · exact ih lit bad cap h
    · have he := Option.some.inj h
      subst he
      simpa using h2
    · exact ih lit bad cap h

theorem driveShareId_ne_empty (url s : String) (h : driveShareId url = some s) :
    s ≠ "" := by
  unfold driveShareId at h
  split at h
  · exact absurd h (by simp)
  · exact absurd h (by simp)
  · dsimp only at h
    split at h
    · rename_i v hv
      by_cases he : v.isEmpty = true
      · rw [if_pos he] at h; exact absurd h (by simp)
      · rw [if_neg he] at h
        obtain rfl : String.mk v = s := Option.some.inj h
        intro hs
        apply he
        have : v = [] := by simpa using congrArg String.data hs
        simp [this]
    · exact absurd h (by simp)

theorem extractFileId_ne_empty (url s : String) (h : extractFileId url = some s) :
    s ≠ "" := by
  unfold extractFileId at h
  by_cases hb : url.length = 33 ∧ strIncludes url "/" = false ∧ strIncludes url "=" = false
  · rw [if_pos hb] at h
    obtain rfl : url = s := Option.some.inj h
    intro hs
    subst hs
    exact absurd hb.1 (by decide)
  · rw [if_neg hb] at h
    rcases h1 : findCapture url.toList "/file/d/".toList '/' with _ | cap1
    · rw [h1] at h
      rcases h2 : findCapture url.toList "id=".toList '&' with _ | cap2
      · rw [h2] at h
        rcases h3 : findCapture url.toList "/d/".toList '/' with _ | cap3
        · rw [h3] at h
          by_cases hd : strIncludes url "drive.google.com" = true
          · rw [if_pos hd] at h
            exact driveShareId_ne_empty url s h
          · rw [if_neg hd] at h
            exact absurd h (by simp)
        · rw [h3] at h
          obtain rfl : String.mk cap3 = s := Option.some.inj h
          intro hs
          exact findCapture_ne_nil _ _ _ _ h3 (by simpa using congrArg String.data hs)
      · rw [h2] at h
        obtain rfl : String.mk cap2 = s := Option.some.inj h
        intro hs
        exact findCapture_ne_nil _ _ _ _ h2 (by simpa using congrArg String.data hs)
    · rw [h1] at h
      obtain rfl : String.mk cap1 = s := Option.some.inj h
      intro hs
      exact findCapture_ne_nil _ _ _ _ h1 (by simpa using congrArg String.data hs)

theorem addBatchRun_spec (urlApi : String → Except Unit (Option String))
    (cf mtype pfx now : String) :
    ∀ (ps : List (Nat × String)) (m : MediaMap),
      ((∀ p ∈ ps, exceptOk (extractFileIdE urlApi p.2) = true) →
        ∃ m', addBatchRun urlApi cf mtype pfx now ps m = Except.ok m' ∧
          (m' cf).getD [] = (m cf).getD [] ++
            ps.filterMap (batchItemOfE urlApi mtype pfx now) ∧
          ∀ k, k ≠ cf → m' k = m k) ∧
      (∀ pre p post, ps = pre ++ p :: post →
        (∀ q ∈ pre, exceptOk (extractFileIdE urlApi q.2) = true) →
        exceptOk (extractFileIdE urlApi p.2) = false →
        ∃ m', addBatchRun urlApi cf mtype pfx now ps m = Except.error m' ∧
          (m' cf).getD [] = (m cf).getD [] ++
            pre.filterMap (batchItemOfE urlApi mtype pfx now) ∧
          ∀ k, k ≠ cf → m' k = m k) := by
  intro ps
  induction ps with
  | nil =>
    intro m
    constructor
    · intro _
      exact ⟨m, rfl, by simp, fun k _ => rfl⟩
    · intro pre p post heq
      exact absurd heq (by simp)
  | cons q ps ih =>
    intro m
    constructor
    · intro hno
      rcases he : extractFileIdE urlApi q.2 with e | o
      · exfalso
        have hq := hno q (by simp)
        rw [he] at hq
        simp [exceptOk] at hq
      · have hno' : ∀ p ∈ ps, exceptOk (extractFileIdE urlApi p.2) = true :=
          fun p hp => hno p (by simp [hp])
        cases o with
        | none =>
          have hstep : addBatchRun urlApi cf mtype pfx now (q :: ps) m =
              addBatchRun urlApi cf mtype pfx now ps m := by
            simp only [addBatchRun]
            rw [he]
          have hitem : batchItemOfE urlApi mtype pfx now q = none := by
            simp [batchItemOfE, he]
          obtain ⟨m', h1, h2, h3⟩ := (ih m).1 hno'
          exact ⟨m', by rw [hstep]; exact h1,
                 by rw [h2, List.filterMap_cons, hitem], h3⟩
        | some fid =>
          by_cases hf : fid = ""
          · have hstep : addBatchRun urlApi cf mtype pfx now (q :: ps) m =
                addBatchRun urlApi cf mtype pfx now ps m := by
              simp [addBatchRun, he, hf]
            have hitem : batchItemOfE urlApi mtype pfx now q = none := by
              simp [batchItemOfE, he, hf]
            obtain ⟨m', h1, h2, h3⟩ := (ih m).1 hno'
            exact ⟨m', by rw [hstep]; exact h1,
                   by rw [h2, List.filterMap_cons, hitem], h3⟩
          · have hstep : addBatchRun urlApi cf mtype pfx now (q :: ps) m =
                addBatchRun urlApi cf mtype pfx now ps
                  (setKey m cf ((m cf).getD [] ++ [mkBatchItem fid mtype pfx q.1 now])) := by
              simp [addBatchRun, he, hf]
            have hitem : batchItemOfE urlApi mtype pfx now q =
                some (mkBatchItem fid mtype pfx q.1 now) := by
              simp [batchItemOfE, he, hf]
            obtain ⟨m', h1, h2, h3⟩ := (ih _).1 hno'
            refine ⟨m', by rw [hstep]; exact h1, ?_, ?_⟩
            · rw [h2, setKey_same, List.filterMap_cons, hitem]
              simp
            · intro k hk
              rw [h3 k hk, setKey_other _ _ _ _ hk]
    · intro pre p post heq hpre herr
      cases pre with
      | nil =>
        simp only [List.nil_append] at heq
        obtain ⟨hqp, hps⟩ : q = p ∧ ps = post := by
          injection heq with h1 h2
          exact ⟨h1, h2⟩
        subst hqp
        rcases he : extractFileIdE urlApi q.2 with e | o
        · have hstep : addBatchRun urlApi cf mtype pfx now (q :: ps) m =
              Except.error m := by
            simp only [addBatchRun]
            rw [he]
          exact ⟨m, hstep, by simp, fun k _ => rfl⟩
        · rw [he] at herr
          simp [exceptOk] at herr
      | cons q' pre' =>
        obtain ⟨hqq, hps⟩ : q = q' ∧ ps = pre' ++ p :: post := by
          rw [List.cons_append] at heq
          injection heq with h1 h2
          exact ⟨h1, h2⟩
        subst hqq
        have hqok := hpre q (by simp)
        have hpre' : ∀ q'' ∈ pre', exceptOk (extractFileIdE urlApi q''.2) = true :=
          fun q'' hq => hpre q'' (by simp [hq])
        rcases he : extractFileIdE urlApi q.2 with e | o
        · rw [he] at hqok
          simp [exceptOk] at hqok
        · cases o with
          | none =>
            have hstep : addBatchRun urlApi cf mtype pfx now (q :: ps) m =
                addBatchRun urlApi cf mtype pfx now ps m := by
              simp only [addBatchRun]
              rw [he]
            have hitem : batchItemOfE urlApi mtype pfx now q = none := by
              simp [batchItemOfE, he]
            obtain ⟨m', h1, h2, h3⟩ := (ih m).2 pre' p post hps hpre' herr
            exact ⟨m', by rw [hstep]; exact h1,
                   by rw [h2, List.filterMap_cons, hitem], h3⟩
          | some fid =>
            by_cases hf : fid = ""
            · have hstep : addBatchRun urlApi cf mtype pfx now (q :: ps) m =
                  addBatchRun urlApi cf mtype pfx now ps m := by
                simp [addBatchRun, he, hf]
              have hitem : batchItemOfE urlApi mtype pfx now q = none := by
                simp [batchItemOfE, he, hf]
              obtain ⟨m', h1, h2, h3⟩ := (ih m).2 pre' p post hps hpre' herr
              exact ⟨m', by rw [hstep]; exact h1,
                     by rw [h2, List.filterMap_cons, hitem], h3⟩
            · have hstep : addBatchRun urlApi cf mtype pfx now (q :: ps) m =
                  addBatchRun urlApi cf mtype pfx now ps
                    (setKey m cf ((m cf).getD [] ++ [mkBatchItem fid mtype pfx q.1 now])) := by
                simp [addBatchRun, he, hf]
              have hitem : batchItemOfE urlApi mtype pfx now q =
                  some (mkBatchItem fid mtype pfx q.1 now) := by
                simp [batchItemOfE, he, hf]
              obtain ⟨m', h1, h2, h3⟩ := (ih _).2 pre' p post hps hpre' herr
              refine ⟨m', by rw [hstep]; exact h1, ?_, ?_⟩
              · rw [h2, setKey_same, List.filterMap_cons, hitem]
                simp
              · intro k hk
                rw [h3 k hk, setKey_other _ _ _ _ hk]

/-- C9 counterexample: the claim says that, for at most 10 links, an item is
added for exactly those links on which `extractFileId` returns a non-null id.
On the two-link batch below the second link is extractable, but the first —
containing `drive.google.com`, matching no pattern, and with no `scheme:`
prefix, so that `new URL` throws — aborts the loop before any link is
processed, and no item at all is added: the run ends in the thrown state
with the media map untouched. -/
theorem addBatchMedia_throw_aborts :
    addBatchMediaE jsUrlApi getDefaultMediaData "root"
        "drive.google.com hello\nhttps://drive.google.com/file/d/ABC123/view"
        "" "video" "t0"
      = Except.error getDefaultMediaData ∧
    extractFileId "https://drive.google.com/file/d/ABC123/view" = some "ABC123" :=
  ⟨rfl, by decide⟩

/-- C9 (amended): `addBatchMedia` rejects more than 10 non-blank links,
leaving the media map completely unchanged (the limit is checked before any
link is resolved); with at most 10 links, a nonempty input, and no link on
which `extractFileId` throws, an item is appended to the current folder's
list for exactly those links on which the resolver yields a non-null id and
no other folder's list changes; a link on which `extractFileId` throws (its
`new URL` fallback rejects the string) aborts the batch at that link — items
added for earlier links remain, later links add nothing.  Stated for an
arbitrary model `urlApi` of the external `new URL(...).searchParams.getable`
call. -/
theorem addBatchMedia_spec_amended (urlApi : String → Except Unit (Option String))
    (md : MediaMap) (cf linksText pfx mtype now : String) :
    ((batchLinks linksText).length > 10 →
        addBatchMediaE urlApi md cf linksText pfx mtype now = Except.ok md) ∧
    (jsTrim linksText ≠ "" → (batchLinks linksText).length ≤ 10 →
      (∀ p ∈ (batchLinks linksText).enum, exceptOk (extractFileIdE urlApi p.2) = true) →
      ∃ md', addBatchMediaE urlApi md cf linksText pfx mtype now = Except.ok md' ∧
        (md' cf).getD [] = (md cf).getD [] ++
          (batchLinks linksText).enum.filterMap (batchItemOfE urlApi mtype pfx now) ∧
        ∀ k, k ≠ cf → md' k = md k) ∧
    (jsTrim linksText ≠ "" → (batchLinks linksText).length ≤ 10 →
      ∀ pre p post, (batchLinks linksText).enum = pre ++ p :: post →
        (∀ q ∈ pre, exceptOk (extractFileIdE urlApi q.2) = true) →
        exceptOk (extractFileIdE urlApi p.2) = false →
        ∃ md', addBatchMediaE urlApi md cf linksText pfx mtype now = Except.error md' ∧
          (md' cf).getD [] = (md cf).getD [] ++
            pre.filterMap (batchItemOfE urlApi mtype pfx now) ∧
          ∀ k, k ≠ cf → md' k = md k) := by
  refine ⟨?_, ?_, ?_⟩
  · intro h
    by_cases ht : jsTrim linksText = ""
    · simp [addBatchMediaE, ht]
    · simp [addBatchMediaE, ht, h]
  · intro ht hlen hno
    have hlen' : ¬((batchLinks linksText).length > 10) := Nat.not_lt.mpr hlen
    have hres : addBatchMediaE urlApi md cf linksText pfx mtype now =
        addBatchRun urlApi cf mtype pfx now (batchLinks linksText).enum md := by
      simp [addBatchMediaE, ht, hlen']
    rw [hres]
    exact (addBatchRun_spec urlApi cf mtype pfx now (batchLinks linksText).enum md).1 hno
  · intro ht hlen pre p post heq hpre herr
    have hlen' : ¬((batchLinks linksText).length > 10) := Nat.not_lt.mpr hlen
    have hres : addBatchMediaE urlApi md cf linksText pfx mtype now =
        addBatchRun urlApi cf mtype pfx now (batchLinks linksText).enum md := by
      simp [addBatchMediaE, ht, hlen']
    rw [hres]
    exact (addBatchRun_spec urlApi cf mtype pfx now
      (batchLinks linksText).enum md).2 pre p post heq hpre herr

/-- Witness for `addBatchMedia_spec_amended`: a two-link non-throwing batch
(one extractable link, one dud) adds exactly the extractable link's item. -/
theorem addBatchMedia_spec_amended_witness :
    ∃ mdr, addBatchMediaE jsUrlApi getDefaultMediaData "root"
        "https://drive.google.com/file/d/ABC123/view\nnothing" "" "video" "t0"
        = Except.ok mdr ∧
      (mdr "root").getD [] = (getDefaultMediaData "root").getD [] ++
        ("https://drive.google.com/file/d/ABC123/view\nnothing" |> batchLinks
          |>.enum.filterMap (batchItemOfE jsUrlApi "video" "" "t0")) ∧
      ∀ k, k ≠ "root" → mdr k = getDefaultMediaData k :=
  (addBatchMedia_spec_amended jsUrlApi getDefaultMediaData "root"
    "https://drive.google.com/file/d/ABC123/view\nnothing" "" "video" "t0").2.1
    (by decide) (by decide) (by decide)

/-- C5: on a remote document snapshot, the in-memory folder and media maps
are replaced wholesale by the remote ones (with the source's defaults for
missing fields) if and only if the remote `lastUpdated` differs from the
timestamp this client last wrote and the client is not mid-save; in
particular the state is never replaced while `syncing` is set. -/
theorem onRemoteSnapshot_spec (st : ClientState) (data : RemoteDoc) :
    (st.syncing = true → ∀ e, onRemoteSnapshot st e data = st) ∧
    (data.lastUpdated.getD "" ≠ st.localTimestamp → st.syncing = false →
      onRemoteSnapshot st true data =
        { st with
          folderStructure := data.folderStructure.getD getDefaultFolderStructure,
          mediaData := data.mediaData.getD getDefaultMediaData }) ∧
    (¬(data.lastUpdated.getD "" ≠ st.localTimestamp ∧ st.syncing = false) →
      onRemoteSnapshot st true data = st) ∧
    onRemoteSnapshot st false data = st := by
  refine ⟨fun hs e => ?_, fun hd hs => ?_, fun hn => ?_, by simp [onRemoteSnapshot]⟩
  · cases e <;> simp [onRemoteSnapshot, hs]
  · simp [onRemoteSnapshot, hd, hs]
  · simp only [onRemoteSnapshot, if_pos]
    rw [if_neg hn]

/-- Witness for `onRemoteSnapshot_spec`: a mid-save client ignores the
snapshot. -/
theorem onRemoteSnapshot_spec_witness :
    onRemoteSnapshot ⟨getDefaultFolderStructure, getDefaultMediaData, true, "t1"⟩
        true ⟨none, none, some "t2"⟩ =
      ⟨getDefaultFolderStructure, getDefaultMediaData, true, "t1"⟩ :=
  (onRemoteSnapshot_spec ⟨getDefaultFolderStructure, getDefaultMediaData, true, "t1"⟩
    ⟨none, none, some "t2"⟩).1 rfl true

/-- C1 evaluated at the failing input: the claim requires moving folder `a`
into itself to fail with `CyclicMove` and leave the folder map unchanged, but
the code performs no cycle check: it detaches `a` from `root` and reparents
it under itself, leaving `a` as its own parent and its own child. -/
theorem moveFolder_into_itself_corrupts :
    (moveSelectedItemsToFolder (fsC1, getDefaultMediaData) [SelItem.folder "a"] "a").1 "a" =
      some ⟨"A", some "a", ["a"]⟩ ∧
    (moveSelectedItemsToFolder (fsC1, getDefaultMediaData) [SelItem.folder "a"] "a").1 "root" =
      some ⟨"Home", none, []⟩ := by
  decide

/-- C10: moving a selected folder to the folder that already is its parent is
a complete no-op — the guard `folder.parent !== targetFolderId` fails, so the
folder is not detached and re-appended and the whole state is unchanged. -/
theorem moveFolder_to_current_parent_noop (st : FolderMap × MediaMap)
    (target fid : String) (f : Folder) (ht : target ≠ "")
    (hf : st.1 fid = some f) (hp : f.parent = some target) :
    moveSelectedItemsToFolder st [SelItem.folder fid] target = st := by
  have hcond : ¬(target = "" ∨ ([SelItem.folder fid] : List SelItem) = []) := by
    simp [ht]
  unfold moveSelectedItemsToFolder
  rw [if_neg hcond, List.foldl_cons, List.foldl_nil]
  simp [moveOneItem, hf, hp]

/-- Witness for `moveFolder_to_current_parent_noop`: moving `a` to `root`. -/
theorem moveFolder_to_current_parent_noop_witness :
    moveSelectedItemsToFolder (fsC1, getDefaultMediaData) [SelItem.folder "a"] "root" =
      (fsC1, getDefaultMediaData) :=
  moveFolder_to_current_parent_noop (fsC1, getDefaultMediaData) "root" "a"
    ⟨"A", some "root", []⟩ (by decide) (by decide) rfl

theorem removeFirstById_none (mid : String) :
    ∀ l : List MediaItem, (∀ m ∈ l, m.id ≠ mid) → removeFirstById l mid = none := by
  intro l
  induction l with
  | nil => intro _; rfl
  | cons m rest ih =>
    intro h
    unfold removeFirstById
    rw [if_neg (h m (by simp)), ih (fun x hx => h x (by simp [hx]))]

theorem removeFirstById_first (mid : String) :
    ∀ (pre : List MediaItem) (item : MediaItem) (post : List MediaItem),
      item.id = mid → (∀ m ∈ pre, m.id ≠ mid) →
      removeFirstById (pre ++ item :: post) mid = some (item, pre ++ post) := by
  intro pre
  induction pre with
  | nil =>
    intro item post hid _
    unfold removeFirstById
    simp [hid]
  | cons m rest ih =>
    intro item post hid h
    have hm : m.id ≠ mid := h m (by simp)
    have hrec := ih item post hid (fun x hx => h x (by simp [hx]))
    rw [List.cons_append]
    simp only [removeFirstById]
    rw [if_neg hm, hrec]
    rfl

/-- C6: for a selected media item with id `M` and source folder `S` moved to
target `T`, the first item of `S`'s list whose id is `M` is removed and
appended to the end of `T`'s list (the list is created if absent, and when
`S = T` the append happens on the already-shortened list); the folder map and
all other media lists are untouched; when no item with id `M` is in `S`'s
list the whole operation is a silent no-op. -/
theorem moveMedia_spec (st : FolderMap × MediaMap) (S M T : String) (hT : T ≠ "") :
    ((∀ m ∈ (st.2 S).getD [], m.id ≠ M) →
        moveSelectedItemsToFolder st [SelItem.media M S] T = st) ∧
    (∀ pre item post, (st.2 S).getD [] = pre ++ item :: post → item.id = M →
      (∀ m ∈ pre, m.id ≠ M) →
        (moveSelectedItemsToFolder st [SelItem.media M S] T).1 = st.1 ∧
        (S ≠ T →
          (moveSelectedItemsToFolder st [SelItem.media M S] T).2 S = some (pre ++ post) ∧
          (moveSelectedItemsToFolder st [SelItem.media M S] T).2 T =
            some ((st.2 T).getD [] ++ [item]) ∧
          ∀ k, k ≠ S → k ≠ T →
            (moveSelectedItemsToFolder st [SelItem.media M S] T).2 k = st.2 k) ∧
        (S = T →
          (moveSelectedItemsToFolder st [SelItem.media M S] T).2 T =
            some ((pre ++ post) ++ [item]) ∧
          ∀ k, k ≠ T →
            (moveSelectedItemsToFolder st [SelItem.media M S] T).2 k = st.2 k)) := by
  have hcond : ¬(T = "" ∨ ([SelItem.media M S] : List SelItem) = []) := by simp [hT]
  have hred : moveSelectedItemsToFolder st [SelItem.media M S] T =
      moveOneItem st T (SelItem.media M S) := by
    unfold moveSelectedItemsToFolder
    rw [if_neg hcond, List.foldl_cons, List.foldl_nil]
  constructor
  · intro h
    rw [hred]
    simp only [moveOneItem]
    rw [removeFirstById_none M _ h]
  · intro pre item post hdec hid hpre
    have hrm : removeFirstById ((st.2 S).getD []) M = some (item, pre ++ post) := by
      rw [hdec]; exact removeFirstById_first M pre item post hid hpre
    have hmove : moveSelectedItemsToFolder st [SelItem.media M S] T =
        (st.1, setKey (setKey st.2 S (pre ++ post)) T
          (((setKey st.2 S (pre ++ post)) T).getD [] ++ [item])) := by
      rw [hred]
      simp only [moveOneItem]
      rw [hrm]
    refine ⟨by rw [hmove], fun hST => ⟨?_, ?_, fun k hkS hkT => ?_⟩,
            fun hST => ⟨?_, fun k hkT => ?_⟩⟩
    · rw [hmove]
      simp only
      rw [setKey_other _ _ _ _ hST, setKey_same]
    · rw [hmove]
      simp only
      rw [setKey_same, setKey_other _ _ _ _ (Ne.symm hST)]
    · rw [hmove]
      simp only
      rw [setKey_other _ _ _ _ hkT, setKey_other _ _ _ _ hkS]
    · subst hST
      rw [hmove]
      simp only
      rw [setKey_same, setKey_same]
      simp
    · subst hST
      rw [hmove]
      simp only
      rw [setKey_other _ _ _ _ hkT, setKey_other _ _ _ _ hkT]

/-- Witness for `moveMedia_spec`: moving the only item of `src` to `dst`. -/
theorem moveMedia_spec_witness :
    (moveSelectedItemsToFolder (getDefaultFolderStructure, mdC6)
        [SelItem.media "m1" "src"] "dst").2 "dst" =
      some [⟨"m1", "video", "Clip", "t0"⟩] :=
  (((moveMedia_spec (getDefaultFolderStructure, mdC6) "src" "m1" "dst"
      (by decide)).2 [] ⟨"m1", "video", "Clip", "t0"⟩ [] (by decide) rfl
      (by simp)).2.1 (by decide)).2.1

/-- C4: for every folder id present in a well-formed folder map,
`getFolderPath` returns a root-first sequence of `{id, name}` records whose
last element is the argument folder and whose first element is the root
folder. -/
theorem getFolderPath_spec (fs : FolderMap) (urank : String → Nat)
    (hwf : PathWF fs urank) :
    ∀ (fuel : Nat) (id : String) (f : Folder), urank id < fuel →
      fs id = some f → id ≠ "" →
      (getFolderPath fuel fs (some id)).getLast? = some ⟨id, f.name⟩ ∧
      ∃ rf, fs "root" = some rf ∧
        (getFolderPath fuel fs (some id)).head? = some ⟨"root", rf.name⟩ := by
  intro fuel
  induction fuel with
  | zero => intro id f h; exact absurd h (by omega)
  | succ n ih =>
    intro id f hfuel hf hne
    have hpath : getFolderPath (n + 1) fs (some id) =
        getFolderPath n fs f.parent ++ [⟨id, f.name⟩] := by
      simp only [getFolderPath]
      rw [if_neg hne, hf]
    have hnone : getFolderPath n fs none = [] := by cases n <;> rfl
    rcases hp : f.parent with _ | p
    · have hroot : id = "root" := hwf.rootOnly id f hf hp
      subst hroot
      rw [hpath, hp, hnone]
      exact ⟨by simp, f, hf, by simp⟩
    · obtain ⟨hpne, hpsome⟩ := hwf.parentPresent id f p hf hp
      obtain ⟨g, hg⟩ := Option.isSome_iff_exists.mp hpsome
      have hrank : urank p < n := by
        have := hwf.parentRank id f p hf hp
        omega
      obtain ⟨hlast, rf, hrf, hhead⟩ := ih p g hrank hg hpne
      have hnonempty : getFolderPath n fs (some p) ≠ [] := by
        intro hnil
        rw [hnil] at hhead
        simp at hhead
      rw [hpath, hp]
      refine ⟨List.getLast?_concat _, rf, hrf, ?_⟩
      rw [List.head?_append_of_ne_nil _ hnonempty]
      exact hhead

theorem pathWF_fsC1 : PathWF fsC1 urankC1 := by
  refine ⟨?_, ?_, ?_⟩
  · intro x f hx hp
    simp only [fsC1] at hx
    split_ifs at hx with h1 h2
    · exact h1
    · have := Option.some.inj hx
      subst this
      simp at hp
  · intro x f p hx hp
    simp only [fsC1] at hx
    split_ifs at hx with h1 h2
    · have := Option.some.inj hx
      subst this
      simp at hp
    · have := Option.some.inj hx
      subst this
      have hpr : "root" = p := by simpa using hp
      subst hpr
      exact ⟨by decide, by decide⟩
  · intro x f p hx hp
    simp only [fsC1] at hx
    split_ifs at hx with h1 h2
    · have := Option.some.inj hx
      subst this
      simp at hp
    · have := Option.some.inj hx
      subst this
      have hpr : "root" = p := by simpa using hp
      subst hpr
      subst h2
      decide

/-- Witness for `getFolderPath_spec`: the path of folder `a` in `fsC1`. -/
theorem getFolderPath_spec_witness :
    (getFolderPath 2 fsC1 (some "a")).getLast? = some ⟨"a", "A"⟩ ∧
    ∃ rf, fsC1 "root" = some rf ∧
      (getFolderPath 2 fsC1 (some "a")).head? = some ⟨"root", rf.name⟩ :=
  getFolderPath_spec fsC1 urankC1 pathWF_fsC1 2 "a" ⟨"A", some "root", []⟩
    (by decide) (by decide) (by decide)

theorem Desc.start_isSome {fs : FolderMap} {a b : String} (h : Desc fs a b) :
    (fs a).isSome = true := by
  cases h with
  | self hf => simp [hf]
  | step hf _ _ => simp [hf]

theorem Desc.target_isSome {fs : FolderMap} {a b : String} (h : Desc fs a b) :
    (fs b).isSome = true := by
  induction h with
  | self hf => simp [hf]
  | step hf hc _ ih => exact ih

theorem desc_rank_le {fs : FolderMap} {rank : String → Nat} (hwf : TreeWF fs rank)
    {a b : String} (h : Desc fs a b) : rank b ≤ rank a := by
  induction h with
  | self _ => exact le_refl _
  | step hf hc _ ih =>
    exact le_trans ih (le_of_lt (hwf.childRank _ _ _ hf hc))

/-- Monotonicity: a subtree chain in a map whose records only lost children
is also a chain in the original map. -/
theorem desc_mono {fs fs' : FolderMap}
    (hshape : ∀ x f', fs' x = some f' →
      ∃ f, fs x = some f ∧ ∀ c ∈ f'.children, c ∈ f.children) :
    ∀ {a b : String}, Desc fs' a b → Desc fs a b := by
  intro a b h
  induction h with
  | self hf =>
    obtain ⟨f, hf', _⟩ := hshape _ _ hf
    exact Desc.self hf'
  | step hf hc _ ih =>
    obtain ⟨f, hf', hsub⟩ := hshape _ _ hf
    exact Desc.step hf' (hsub _ hc) ih

/-- Stability: a subtree chain survives into any map that agrees with the
original on the whole subtree. -/
theorem desc_stable {fs fs' : FolderMap} :
    ∀ {a b : String}, Desc fs a b → (∀ x, Desc fs a x → fs' x = fs x) →
      Desc fs' a b := by
  intro a b h
  induction h with
  | self hf =>
    intro hagree
    exact Desc.self (by rw [hagree _ (Desc.self hf)]; exact hf)
  | step hf hc hd ih =>
    intro hagree
    refine Desc.step (f := _) (by rw [hagree _ (Desc.self hf)]; exact hf) hc (ih ?_)
    intro x hx
    exact hagree x (Desc.step hf hc hx)

/-- Every strict subtree membership ends with a listed-child step. -/
theorem desc_lastStep {fs : FolderMap} {a b : String} (h : Desc fs a b) :
    a = b ∨ ∃ q fq, fs q = some fq ∧ b ∈ fq.children ∧ Desc fs a q := by
  induction h with
  | self _ => exact Or.inl rfl
  | step hf hc _ ih =>
    rcases ih with rfl | ⟨q, fq, hq, hbq, hdq⟩
    · exact Or.inr ⟨_, _, hf, hc, Desc.self hf⟩
    · exact Or.inr ⟨q, fq, hq, hbq, Desc.step hf hc hdq⟩

/-- Bidirectional consistency makes the owner of a listed child unique. -/
theorem owner_unique {fs : FolderMap} {rank : String → Nat} (hwf : TreeWF fs rank)
    {p q c : String} {fp fq : Folder} (hp : fs p = some fp) (hcp : c ∈ fp.children)
    (hq : fs q = some fq) (hcq : c ∈ fq.children) : p = q := by
  obtain ⟨g, hg, hgp⟩ := hwf.childExists p fp c hp hcp
  obtain ⟨g', hg', hgq⟩ := hwf.childExists q fq c hq hcq
  rw [hg] at hg'
  have := Option.some.inj hg'
  subst this
  exact Option.some.inj (hgp.symm.trans hgq)

/-- The ancestors (within listed chains) of a node are totally ordered. -/
theorem desc_total {fs : FolderMap} {rank : String → Nat} (hwf : TreeWF fs rank) :
    ∀ {a k b : String}, Desc fs a k → Desc fs b k → Desc fs a b ∨ Desc fs b a := by
  intro a k b h
  induction h with
  | self hf => intro hbk; exact Or.inr hbk
  | step hf hc hd ih =>
    intro hbk
    rcases ih hbk with hyb | hby
    · exact Or.inl (Desc.step hf hc hyb)
    · rcases desc_lastStep hby with rfl | ⟨q, fq, hq, hyq, hbq⟩
      · obtain ⟨g, hg⟩ := Option.isSome_iff_exists.mp hby.target_isSome
        exact Or.inl (Desc.step hf hc (Desc.self hg))
      · have hqa : q = _ := owner_unique hwf hq hyq hf hc
        subst hqa
        exact Or.inr hbq

/-- Subtrees of two distinct children of the same parent are disjoint. -/
theorem sibling_disjoint {fs : FolderMap} {rank : String → Nat}
    (hwf : TreeWF fs rank) {c c' P k : String}
    (hcc : c ≠ c')
    (hc : ∀ g, fs c = some g → g.parent = some P)
    (hc' : ∀ g, fs c' = some g → g.parent = some P)
    (hrc : rank c < rank P) (hrc' : rank c' < rank P)
    (hk : Desc fs c k) (hk' : Desc fs c' k) : False := by
  rcases desc_total hwf hk hk' with hcd | hcd
  · rcases desc_lastStep hcd with rfl | ⟨q, fq, hq, hmem, hdq⟩
    · exact hcc rfl
    · obtain ⟨g, hg, hgp⟩ := hwf.childExists q fq c' hq hmem
      have hqP : q = P := Option.some.inj (hgp.symm.trans (hc' g hg))
      subst hqP
      have := desc_rank_le hwf hdq
      omega
  · rcases desc_lastStep hcd with rfl | ⟨q, fq, hq, hmem, hdq⟩
    · exact hcc rfl
    · obtain ⟨g, hg, hgp⟩ := hwf.childExists q fq c hq hmem
      have hqP : q = P := Option.some.inj (hgp.symm.trans (hc g hg))
      subst hqP
      have := desc_rank_le hwf hdq
      omega

theorem parentAdjusted_shape (fs : FolderMap) (F k : String) :
    ∀ f', parentAdjusted fs F k = some f' →
      ∃ f, fs k = some f ∧ f'.parent = f.parent ∧ ∀ c ∈ f'.children, c ∈ f.children := by
  intro f' h
  unfold parentAdjusted at h
  split at h
  · exact ⟨f', h, rfl, fun c hc => hc⟩
  · split_ifs at h with hcond
    · split at h
      · rename_i pf hpf
        have hval := Option.some.inj h
        exact ⟨pf, hpf, by rw [← hval], by
          intro c hc
          rw [← hval] at hc
          simp only [List.mem_filter] at hc
          exact hc.1⟩
      · exact absurd h (by simp)
    · exact ⟨f', h, rfl, fun c hc => hc⟩

theorem parentAdjusted_isSome (fs : FolderMap) (F k : String)
    (h : (fs k).isSome = true) : (parentAdjusted fs F k).isSome = true := by
  unfold parentAdjusted
  split
  · exact h
  · split_ifs with hcond
    · split
      · simp
      · rename_i hk
        rw [hk] at h
        simp at h
    · exact h

theorem parentAdjusted_other (fs : FolderMap) (F k : String)
    (h : ∀ f, fs F = some f → f.parent ≠ some k) : parentAdjusted fs F k = fs k := by
  unfold parentAdjusted
  split
  · rfl
  · rename_i f hf
    rw [if_neg]
    rintro ⟨h1, _⟩
    exact h f hf h1

/-- A map whose records only lost children (and kept their parents), and
whose listed children are still present, satisfies the tree invariants. -/
theorem wf_of_shape {fs fs' : FolderMap} {rank : String → Nat}
    (hwf : TreeWF fs rank)
    (hshape : ∀ k f', fs' k = some f' →
      ∃ f, fs k = some f ∧ f'.parent = f.parent ∧ ∀ c ∈ f'.children, c ∈ f.children)
    (hpresent : ∀ p f' c, fs' p = some f' → c ∈ f'.children → (fs' c).isSome = true) :
    TreeWF fs' rank := by
  refine ⟨?_, ?_, ?_, ?_⟩
  · intro p f' c hp hc
    obtain ⟨f, hf, _, hsub⟩ := hshape p f' hp
    obtain ⟨g, hg, hgp⟩ := hwf.childExists p f c hf (hsub c hc)
    obtain ⟨g', hg'⟩ := Option.isSome_iff_exists.mp (hpresent p f' c hp hc)
    obtain ⟨g0, hg0, hg0par, _⟩ := hshape c g' hg'
    rw [hg] at hg0
    refine ⟨g', hg', ?_⟩
    rw [hg0par, show g0 = g from (Option.some.inj hg0).symm]
    exact hgp
  · intro p f' c hp hc
    obtain ⟨f, hf, _, hsub⟩ := hshape p f' hp
    exact hwf.childRank p f c hf (hsub c hc)
  · intro x f' p hx hpar
    obtain ⟨f, hf, hpe, _⟩ := hshape x f' hx
    exact hwf.parentRank x f p hf (by rw [← hpe]; exact hpar)
  · intro x f' hx
    obtain ⟨f, hf, hpe, _⟩ := hshape x f' hx
    rw [hpe]
    exact hwf.parentTruthy x f hf

/-- The record-shape half of the delete characterization. -/
theorem char_shape {fs fs' : FolderMap} {F : String}
    (hA : ∀ k, Desc fs F k → fs' k = none)
    (hB : ∀ k, ¬ Desc fs F k → fs' k = parentAdjusted fs F k) :
    ∀ k f', fs' k = some f' →
      ∃ f, fs k = some f ∧ f'.parent = f.parent ∧ ∀ c ∈ f'.children, c ∈ f.children := by
  intro k f' hk
  by_cases hd : Desc fs F k
  · rw [hA k hd] at hk
    exact absurd hk (by simp)
  · rw [hB k hd] at hk
    exact parentAdjusted_shape fs F k f' hk

/-- `removeFromParent` computes `parentAdjusted` pointwise. -/
theorem removeFromParent_eq (fs : FolderMap) (F : String) (f : Folder)
    (hF : fs F = some f) :
    ∀ k, removeFromParent fs F f k = parentAdjusted fs F k := by
  intro k
  unfold removeFromParent parentAdjusted
  rw [hF]
  dsimp only
  rcases hp : f.parent with _ | p
  · dsimp only
    rw [if_neg (by simp)]
  · dsimp only
    by_cases hpe : p ≠ ""
    · rw [if_pos hpe]
      rcases hfp : fs p with _ | pf
      · dsimp only
        by_cases hk : k = p
        · subst hk
          rw [if_pos ⟨rfl, hpe⟩, hfp]
        · rw [if_neg (by rintro ⟨h1, _⟩; exact hk (Option.some.inj h1).symm)]
      · dsimp only
        by_cases hk : k = p
        · subst hk
          rw [if_pos ⟨rfl, hpe⟩, hfp, setKey_same]
        · rw [if_neg (by rintro ⟨h1, _⟩; exact hk (Option.some.inj h1).symm),
              setKey_other _ _ _ _ hk]
    · rw [if_neg hpe]
      push_neg at hpe
      rw [if_neg (by rintro ⟨h1, h2⟩; exact h2 (((Option.some.inj h1).symm).trans hpe))]

/-- A map obtained from a well-formed one by erasing the subtree of `F` and
filtering `F` out of its parent's children is well-formed again. -/
theorem wf_of_char {fs fs' : FolderMap} {rank : String → Nat} {F : String}
    (hwf : TreeWF fs rank)
    (hA : ∀ k, Desc fs F k → fs' k = none)
    (hB : ∀ k, ¬ Desc fs F k → fs' k = parentAdjusted fs F k) :
    TreeWF fs' rank := by
  refine wf_of_shape hwf (char_shape hA hB) ?_
  intro p f' c hp hc
  have hndp : ¬ Desc fs F p := by
    intro hd
    rw [hA p hd] at hp
    exact absurd hp (by simp)
  have hp' : parentAdjusted fs F p = some f' := by rw [← hB p hndp]; exact hp
  obtain ⟨f0, hf0, hpar0, hsub⟩ := parentAdjusted_shape fs F p f' hp'
  obtain ⟨g, hg, hgp⟩ := hwf.childExists p f0 c hf0 (hsub c hc)
  have hndc : ¬ Desc fs F c := by
    intro hd
    rcases desc_lastStep hd with rfl | ⟨q, fq, hq, hmem, hdq⟩
    · have hpne : p ≠ "" := by
        intro he
        exact hwf.parentTruthy _ _ hg (by rw [hgp, he])
      unfold parentAdjusted at hp'
      rw [hg] at hp'
      dsimp only at hp'
      rw [if_pos ⟨hgp, hpne⟩, hf0] at hp'
      dsimp only at hp'
      have hval := Option.some.inj hp'
      rw [← hval] at hc
      simp [List.mem_filter] at hc
    · have hqp : q = p := owner_unique hwf hq hmem hf0 (hsub c hc)
      subst hqp
      exact hndp hdq
  rw [hB c hndc]
  exact parentAdjusted_isSome fs F c (by simp [hg])

/-- Effect of the `forEach` over the children of `P`: keys in the subtrees
of the processed children vanish from both maps, every other key except `P`
itself keeps its folder record, and every other key keeps its media list. -/
theorem deleteChildren_fold_spec {n : Nat} {rank : String → Nat}
    (ih : DeleteChar n rank) :
    ∀ (cs : List String) (fsx : FolderMap) (mdx : MediaMap) (P : String),
      TreeWF fsx rank →
      (∀ c ∈ cs, rank c < n) →
      (∀ c ∈ cs, ∀ g, fsx c = some g → g.parent = some P) →
      (∀ c ∈ cs, rank c < rank P) →
      (∀ k, (∃ c ∈ cs, Desc fsx c k) →
          (cs.foldl (deleteFolderFuel n) (fsx, mdx)).1 k = none ∧
          (cs.foldl (deleteFolderFuel n) (fsx, mdx)).2 k = none) ∧
      (∀ k, ¬(∃ c ∈ cs, Desc fsx c k) → ¬(k = P) →
          (cs.foldl (deleteFolderFuel n) (fsx, mdx)).1 k = fsx k) ∧
      (∀ k, ¬(∃ c ∈ cs, Desc fsx c k) →
          (cs.foldl (deleteFolderFuel n) (fsx, mdx)).2 k = mdx k) := by
  intro cs
  induction cs with
  | nil =>
    intro fsx mdx P hwf h2 h3 h4
    refine ⟨?_, fun k _ _ => rfl, fun k _ => rfl⟩
    rintro k ⟨c, hc, _⟩
    exact absurd hc (by simp)
  | cons c cs' ihcs =>
    intro fsx mdx P hwf h2 h3 h4
    have hcmem : c ∈ c :: cs' := by simp
    obtain ⟨hdel, hkeep⟩ := ih fsx mdx c hwf (h2 c hcmem)
    rcases hst : deleteFolderFuel n (fsx, mdx) c with ⟨fs2, md2⟩
    simp only [hst] at hdel hkeep
    have hwf2 : TreeWF fs2 rank :=
      wf_of_char hwf (fun k hk => (hdel k hk).1) (fun k hk => (hkeep k hk).1)
    have hAdj : ∀ k, ¬(k = P) → parentAdjusted fsx c k = fsx k := by
      intro k hk
      apply parentAdjusted_other
      intro g hg hpar
      exact hk (Option.some.inj (hpar.symm.trans (h3 c hcmem g hg)))
    have hkP : ∀ c₀, c₀ ∈ c :: cs' → ∀ k, Desc fsx c₀ k → ¬(k = P) := by
      intro c₀ hc₀ k hd hkp
      subst hkp
      have h1 := desc_rank_le hwf hd
      have hx := h4 c₀ hc₀
      omega
    have h2' : ∀ c' ∈ cs', rank c' < n := fun c' h => h2 c' (by simp [h])
    have h4' : ∀ c' ∈ cs', rank c' < rank P := fun c' h => h4 c' (by simp [h])
    have h3' : ∀ c' ∈ cs', ∀ g, fs2 c' = some g → g.parent = some P := by
      intro c' hc' g hg
      by_cases hd : Desc fsx c c'
      · rw [(hdel c' hd).1] at hg
        exact absurd hg (by simp)
      · rw [(hkeep c' hd).1] at hg
        have hne : ¬(c' = P) := by
          intro he
          have hx := h4' c' hc'
          rw [he] at hx
          omega
        rw [hAdj c' hne] at hg
        exact h3 c' (by simp [hc']) g hg
    obtain ⟨ihl1, ihl2, ihl3⟩ := ihcs fs2 md2 P hwf2 h2' h3' h4'
    have hshape2 := char_shape (fun k hk => (hdel k hk).1) (fun k hk => (hkeep k hk).1)
    have hmono : ∀ {a b : String}, Desc fs2 a b → Desc fsx a b := by
      intro a b h
      refine desc_mono ?_ h
      intro x f' hx
      obtain ⟨f, hf, _, hsub⟩ := hshape2 x f' hx
      exact ⟨f, hf, hsub⟩
    have hstab : ∀ c', c' ∈ c :: cs' → ¬(c' = c) → ∀ k, Desc fsx c' k →
        Desc fs2 c' k := by
      intro c' hc' hne k hd
      apply desc_stable hd
      intro y hy
      have hndc : ¬ Desc fsx c y := by
        intro hcy
        exact sibling_disjoint hwf (fun he => hne he.symm)
          (h3 c hcmem) (h3 c' hc') (h4 c hcmem) (h4 c' hc') hcy hy
      have hyP := hkP c' hc' y hy
      rw [(hkeep y hndc).1, hAdj y hyP]
    refine ⟨?_, ?_, ?_⟩
    · rintro k ⟨c₀, hc₀, hd⟩
      rw [List.foldl_cons, hst]
      by_cases hdc : Desc fsx c k
      · have h1 := hdel k hdc
        have hnone2 : ¬(∃ c' ∈ cs', Desc fs2 c' k) := by
          rintro ⟨c', hc', hd'⟩
          have hs := hd'.target_isSome
          rw [h1.1] at hs
          simp at hs
        have hkPne := hkP c hcmem k hdc
        constructor
        · rw [ihl2 k hnone2 hkPne, h1.1]
        · rw [ihl3 k hnone2, h1.2]
      · have hc₀c : ¬(c₀ = c) := by
          intro he
          subst he
          exact hdc hd
        have hc₀cs' : c₀ ∈ cs' := by
          rcases List.mem_cons.mp hc₀ with he | h
          · exact absurd he hc₀c
          · exact h
        exact ihl1 k ⟨c₀, hc₀cs', hstab c₀ hc₀ hc₀c k hd⟩
    · intro k hnall hkP'
      rw [List.foldl_cons, hst]
      have hndc : ¬ Desc fsx c k := fun hd => hnall ⟨c, hcmem, hd⟩
      have hnall' : ¬(∃ c' ∈ cs', Desc fs2 c' k) := by
        rintro ⟨c', hc', hd'⟩
        exact hnall ⟨c', by simp [hc'], hmono hd'⟩
      rw [ihl2 k hnall' hkP', (hkeep k hndc).1, hAdj k hkP']
    · intro k hnall
      rw [List.foldl_cons, hst]
      have hndc : ¬ Desc fsx c k := fun hd => hnall ⟨c, hcmem, hd⟩
      have hnall' : ¬(∃ c' ∈ cs', Desc fs2 c' k) := by
        rintro ⟨c', hc', hd'⟩
        exact hnall ⟨c', by simp [hc'], hmono hd'⟩
      rw [ihl3 k hnall', (hkeep k hndc).2]

/-- The full characterization of `deleteFolderFuel`, for every fuel and every
well-formed map whose rank bounds the fuel. -/
theorem deleteFolderFuel_char : ∀ (fuel : Nat) (rank : String → Nat),
    DeleteChar fuel rank := by
  intro fuel
  induction fuel with
  | zero =>
    intro rank fs md F hwf hrank
    exact absurd hrank (by omega)
  | succ n ihn =>
    intro rank fs md F hwf hrank
    rcases hF : fs F with _ | f
    · have hres : deleteFolderFuel (n + 1) (fs, md) F = (fs, md) := by
        simp only [deleteFolderFuel]
        rw [hF]
      constructor
      · intro k hd
        have hs := hd.start_isSome
        rw [hF] at hs
        simp at hs
      · intro k hnd
        rw [hres]
        refine ⟨?_, rfl⟩
        unfold parentAdjusted
        rw [hF]
    · have hres : deleteFolderFuel (n + 1) (fs, md) F =
          (eraseKey (f.children.foldl (deleteFolderFuel n)
              (removeFromParent fs F f, md)).1 F,
           eraseKey (f.children.foldl (deleteFolderFuel n)
              (removeFromParent fs F f, md)).2 F) := by
        simp only [deleteFolderFuel]
        rw [hF]
      have hfs1 : ∀ k, removeFromParent fs F f k = parentAdjusted fs F k :=
        removeFromParent_eq fs F f hF
      have hwf1 : TreeWF (removeFromParent fs F f) rank := by
        apply wf_of_shape hwf
        · intro k f' hk
          rw [hfs1 k] at hk
          exact parentAdjusted_shape fs F k f' hk
        · intro p' f' c hp' hc
          rw [hfs1 p'] at hp'
          obtain ⟨f0, hf0, _, hsub⟩ := parentAdjusted_shape fs F p' f' hp'
          obtain ⟨g, hg, _⟩ := hwf.childExists p' f0 c hf0 (hsub c hc)
          rw [hfs1 c]
          exact parentAdjusted_isSome fs F c (by simp [hg])
      have hfold2 : ∀ c ∈ f.children, rank c < n := by
        intro c hc
        have h1 := hwf.childRank F f c hF hc
        omega
      have hfold4 : ∀ c ∈ f.children, rank c < rank F :=
        fun c hc => hwf.childRank F f c hF hc
      have hadjc : ∀ y, ¬(f.parent = some y) → removeFromParent fs F f y = fs y := by
        intro y hy
        rw [hfs1 y]
        apply parentAdjusted_other
        intro f0 hf0 hpar
        have hff0 : f0 = f := Option.some.inj (hf0.symm.trans hF)
        rw [hff0] at hpar
        exact hy hpar
      have hfold3 : ∀ c ∈ f.children, ∀ g,
          removeFromParent fs F f c = some g → g.parent = some F := by
        intro c hc g hg
        have hcy : ¬(f.parent = some c) := by
          intro hpar
          have h1 := hwf.parentRank F f c hF hpar
          have h2 := hwf.childRank F f c hF hc
          omega
        rw [hadjc c hcy] at hg
        obtain ⟨g', hg', hgp⟩ := hwf.childExists F f c hF hc
        rw [hg] at hg'
        rw [Option.some.inj hg']
        exact hgp
      obtain ⟨hf1, hf2, hf3⟩ := deleteChildren_fold_spec (ihn rank) f.children
        (removeFromParent fs F f) md F hwf1 hfold2 hfold3 hfold4
      have hto1 : ∀ c ∈ f.children, ∀ k, Desc fs c k →
          Desc (removeFromParent fs F f) c k := by
        intro c hc k hd
        apply desc_stable hd
        intro y hy
        apply hadjc
        intro hpar
        have h1 := hwf.parentRank F f y hF hpar
        have h2 := desc_rank_le hwf hy
        have h3 := hwf.childRank F f c hF hc
        omega
      have hfrom1 : ∀ {a b : String}, Desc (removeFromParent fs F f) a b →
          Desc fs a b := by
        intro a b h
        refine desc_mono ?_ h
        intro x f' hx
        rw [hfs1 x] at hx
        obtain ⟨f0, hf0, _, hsub⟩ := parentAdjusted_shape fs F x f' hx
        exact ⟨f0, hf0, hsub⟩
      have hinv : ∀ k, Desc fs F k → k = F ∨ ∃ c ∈ f.children, Desc fs c k := by
        intro k hd
        cases hd with
        | self _ => exact Or.inl rfl
        | step hf' hc hd' =>
          rename_i f'' c
          have hff : f'' = f := Option.some.inj (hf'.symm.trans hF)
          subst hff
          exact Or.inr ⟨c, hc, hd'⟩
      constructor
      · intro k hd
        rw [hres]
        dsimp only
        rcases hinv k hd with rfl | ⟨c, hc, hdc⟩
        · exact ⟨eraseKey_same _ _, eraseKey_same _ _⟩
        · have hkF : k ≠ F := by
            intro he
            have h1 := desc_rank_le hwf hdc
            have h2 := hwf.childRank F f c hF hc
            rw [he] at h1
            omega
          have hx := hf1 k ⟨c, hc, hto1 c hc k hdc⟩
          exact ⟨by rw [eraseKey_other _ _ _ hkF, hx.1],
                 by rw [eraseKey_other _ _ _ hkF, hx.2]⟩
      · intro k hnd
        have hkF : k ≠ F := by
          intro he
          subst he
          exact hnd (Desc.self hF)
        have hnone1 : ¬(∃ c ∈ f.children, Desc (removeFromParent fs F f) c k) := by
          rintro ⟨c, hc, hd1⟩
          exact hnd (Desc.step hF hc (hfrom1 hd1))
        rw [hres]
        dsimp only
        constructor
        · rw [eraseKey_other _ _ _ hkF, hf2 k hnone1 hkF, hfs1 k]
        · rw [eraseKey_other _ _ _ hkF, hf3 k hnone1]

/-- C3: for a folder `F` present in a well-formed folder map, `deleteFolder`
removes `F` and every descendant of `F` from both the folder map and the
media map, the former parent's `children` no longer contains `F`, and every
folder that is not a descendant of `F` remains in the folder map with its
media list unchanged. -/
theorem deleteFolder_spec (fs : FolderMap) (md : MediaMap) (rank : String → Nat)
    (F : String) (f : Folder) (fuel : Nat) (hwf : TreeWF fs rank)
    (hF : fs F = some f) (hfuel : rank F < fuel) :
    (∀ d, Desc fs F d →
        (deleteFolderFuel fuel (fs, md) F).1 d = none ∧
        (deleteFolderFuel fuel (fs, md) F).2 d = none) ∧
    (∀ p pf', f.parent = some p →
        (deleteFolderFuel fuel (fs, md) F).1 p = some pf' → F ∉ pf'.children) ∧
    (∀ k, ¬ Desc fs F k →
        ((fs k).isSome = true → ((deleteFolderFuel fuel (fs, md) F).1 k).isSome = true) ∧
        (deleteFolderFuel fuel (fs, md) F).2 k = md k) := by
  obtain ⟨hA, hB⟩ := deleteFolderFuel_char fuel rank fs md F hwf hfuel
  refine ⟨hA, ?_, ?_⟩
  · intro p pf' hp hpf
    have hnd : ¬ Desc fs F p := by
      intro hd
      have h1 := desc_rank_le hwf hd
      have h2 := hwf.parentRank F f p hF hp
      omega
    rw [(hB p hnd).1] at hpf
    have hpne : p ≠ "" := by
      intro he
      exact hwf.parentTruthy F f hF (by rw [hp, he])
    unfold parentAdjusted at hpf
    rw [hF] at hpf
    dsimp only at hpf
    rw [if_pos ⟨hp, hpne⟩] at hpf
    split at hpf
    · have hval := Option.some.inj hpf
      rw [← hval]
      intro hmem
      simp [List.mem_filter] at hmem
    · exact absurd hpf (by simp)
  · intro k hnd
    obtain ⟨h1, h2⟩ := hB k hnd
    refine ⟨?_, h2⟩
    intro hsome
    rw [h1]
    exact parentAdjusted_isSome fs F k hsome

/-- C2 evaluated at the failing input: the claim requires `deleteFolder` on
the root id to fail with `InvalidOperation` and leave both maps unchanged;
the code has no such guard and deletes `root`, its whole subtree and its
media list. -/
theorem deleteFolder_root_not_guarded :
    (deleteFolderFuel 2 (fsC1, mdC2) "root").1 "root" = none ∧
    (deleteFolderFuel 2 (fsC1, mdC2) "root").1 "a" = none ∧
    (deleteFolderFuel 2 (fsC1, mdC2) "root").2 "root" = none := by
  decide

theorem treeWF_fsC3 : TreeWF fsC3 rankC3 := by
  refine ⟨?_, ?_, ?_, ?_⟩
  · intro p f c hp hc
    simp only [fsC3] at hp
    split_ifs at hp with h1 h2 h3
    · have := Option.some.inj hp
      subst this
      subst h1
      have hca : c = "a" := by simpa using hc
      subst hca
      exact ⟨⟨"A", some "root", ["b"]⟩, by decide, by decide⟩
    · have := Option.some.inj hp
      subst this
      subst h2
      have hcb : c = "b" := by simpa using hc
      subst hcb
      exact ⟨⟨"B", some "a", []⟩, by decide, by decide⟩
    · have := Option.some.inj hp
      subst this
      simp at hc
  · intro p f c hp hc
    simp only [fsC3] at hp
    split_ifs at hp with h1 h2 h3
    · have := Option.some.inj hp
      subst this
      subst h1
      have hca : c = "a" := by simpa using hc
      subst hca
      decide
    · have := Option.some.inj hp
      subst this
      subst h2
      have hcb : c = "b" := by simpa using hc
      subst hcb
      decide
    · have := Option.some.inj hp
      subst this
      simp at hc
  · intro x f p hx hp
    simp only [fsC3] at hx
    split_ifs at hx with h1 h2 h3
    · have := Option.some.inj hx
      subst this
      simp at hp
    · have := Option.some.inj hx
      subst this
      have hpr : "root" = p := by simpa using hp
      subst hpr
      subst h2
      decide
    · have := Option.some.inj hx
      subst this
      have hpr : "a" = p := by simpa using hp
      subst hpr
      subst h3
      decide
  · intro x f hx
    simp only [fsC3] at hx
    split_ifs at hx with h1 h2 h3
    · have := Option.some.inj hx
      subst this
      simp
    · have := Option.some.inj hx
      subst this
      simp
    · have := Option.some.inj hx
      subst this
      simp

/-- Witness for `deleteFolder_spec`: deleting `a` from `root → a → b` erases
`a`'s descendant `b` (folders and media), filters `a` out of `root`'s
children, and leaves the non-descendant `root` present with its media. -/
theorem deleteFolder_spec_witness :
    ((deleteFolderFuel 2 (fsC3, mdC3) "a").1 "b" = none ∧
     (deleteFolderFuel 2 (fsC3, mdC3) "a").2 "b" = none) ∧
    ("a" ∉ ([] : List String)) ∧
    (((deleteFolderFuel 2 (fsC3, mdC3) "a").1 "root").isSome = true ∧
     (deleteFolderFuel 2 (fsC3, mdC3) "a").2 "root" = mdC3 "root") := by
  have h := deleteFolder_spec fsC3 mdC3 rankC3 "a" ⟨"A", some "root", ["b"]⟩ 2
    treeWF_fsC3 (by decide) (by decide)
  have hdab : Desc fsC3 "a" "b" := by
    refine Desc.step (f := ⟨"A", some "root", ["b"]⟩) (c := "b") (by decide) (by simp) ?_
    exact Desc.self (f := ⟨"B", some "a", []⟩) (by decide)
  have hnd : ¬ Desc fsC3 "a" "root" := by
    intro hd
    exact absurd (desc_rank_le treeWF_fsC3 hd) (by decide)
  exact ⟨h.1 "b" hdab,
         h.2.1 "root" ⟨"Home", none, []⟩ rfl (by decide),
         (h.2.2 "root" hnd).1 (by decide), (h.2.2 "root" hnd).2⟩

end MediaVault


